import Mathlib

/-!
Verification of `hmmlearn/mixhmm.py` (mixtures of hidden Markov models).

The file shallowly embeds the parts of `_BaseMixHMM` and `MultinomialMixHMM`
needed to settle the claims: the component-weight setter and M-step update,
the multinomial input validation wrapped around `fit`, the `sample` method,
the EM training loop skeleton, and the real-valued scoring and
sufficient-statistics accumulation code.

Floating-point values are embedded as exact rationals (for the purely
structural and arithmetic code) or reals (for the log-space code).  The
collaborators that live in `hmm.py` (`normalize`, `log_normalize`,
`logsumexp`, the per-component HMM operations) and in numpy
(`np.allclose`, `np.argmax`, `np.random`) are modelled from the spec, as
noted on each such definition.
-/

namespace Mixhmm

/-- Python exception kinds observable from `_set_component_weights`. -/
inductive PyError where
  | shapeError (msg : String)
  | valueError (msg : String)
deriving DecidableEq

/-- Modelled from the spec: numpy's `np.allclose(a, b)` with its default
tolerances, true when the absolute difference is at most
`atol + rtol * abs b` with `atol = 1e-8` and `rtol = 1e-5`. -/
def npAllclose (a b : ℚ) : Bool :=
  decide (|a - b| ≤ 1 / 100000000 + 1 / 100000 * |b|)

/-- Modelled from the spec: the LogSpaceMath collaborator's `normalize`,
which maps a vector to probabilities summing to 1 (spec section 6).  `hmm.py`
is not among the sources; spec section 2 declares the LogSpaceMath helpers
pure functions with no state, so `normalize` returns a fresh normalized
vector and leaves its argument untouched. -/
def normalizeSpec (v : List ℚ) : List ℚ :=
  v.map (fun x => x / v.sum)

/-- Embedding of `_BaseMixHMM._set_component_weights` (mixhmm.py lines
349-366) applied to an explicit vector (the `None` branch draws from the
Dirichlet prior and is outside the claims).  The source first runs
`normalize(component_weights)` when some entry is zero and discards the
returned value; with the spec-modelled pure `normalize` that statement has
no effect on the stored vector, so it contributes nothing here.  The value
carried by `Except.ok` is the observable weight vector: the source stores
`np.log(w)` and the getter returns `np.exp` of it, which round-trips every
accepted entry including an exact zero (log 0 is -inf and exp(-inf) is 0). -/
def setComponentWeights (n_components : ℕ) (w : List ℚ) : Except PyError (List ℚ) :=
  if w.length ≠ n_components then
    Except.error (PyError.valueError ("component_weights must have length n_components"))
  else if npAllclose w.sum 1 then Except.ok w
  else Except.error (PyError.valueError ("component_weights must sum to 1.0"))

/-- Embedding of `np.maximum(component_weights_prior - 1.0 +
stats['component_weights'], 1e-20)` from `_BaseMixHMM._do_mstep`
(mixhmm.py lines 432-435). -/
def flooredWeights (prior statsCW : List ℚ) : List ℚ :=
  (prior.zip statsCW).map (fun ps => max (ps.1 - 1 + ps.2) (1 / 10 ^ 20))

/-- Embedding of the component-weight branch of `_BaseMixHMM._do_mstep`
(mixhmm.py lines 426-435): when `'p'` is in `params` the floored statistics
are normalized and assigned to `component_weights_`, which routes the value
through `_set_component_weights`; otherwise the current weights are kept. -/
def doMstepComponentWeights (params : List Char) (n_components : ℕ)
    (prior statsCW current : List ℚ) : Except PyError (List ℚ) :=
  if 'p' ∈ params then
    setComponentWeights n_components (normalizeSpec (flooredWeights prior statsCW))
  else Except.ok current

/-- Differences of consecutive elements, embedding `np.diff`. -/
def intDiffs : List ℤ → List ℤ
  | a :: b :: t => (b - a) :: intDiffs (b :: t)
  | _ => []

/-- Embedding of `MultinomialMixHMM._check_input_symbols` (mixhmm.py lines
566-592).  Symbols are embedded as ℤ, so the integer-dtype test of the
source always passes; the remaining tests are: total length 1 is rejected,
any negative symbol is rejected, and after sorting any gap larger than 1
between consecutive symbols is rejected. -/
def checkInputSymbols (obs : List (List ℤ)) : Bool :=
  let symbols := obs.flatten
  if symbols.length = 1 then false
  else if symbols.any (fun x => decide (x < 0)) then false
  else if (intDiffs (List.insertionSort (fun a b => a ≤ b) symbols)).any
      (fun d => decide (1 < d)) then false
  else true

/-- The multinomial precondition of the claim: all symbols non-negative and,
after sorting, consecutive symbols at distance at most 1 (contiguity).
`violatesMultinomialPrecondition obs = true` states the dataset breaks it. -/
def violatesMultinomialPrecondition (obs : List (List ℤ)) : Bool :=
  let symbols := obs.flatten
  !(symbols.all (fun x => decide (0 ≤ x)) &&
    (intDiffs (List.insertionSort (fun a b => a ≤ b) symbols)).all
      (fun d => decide (d ≤ 1)))

/-- The `ValueError` raised by `MultinomialMixHMM.fit`: the source formats
`err_msg % obs`, so the message carries the offending dataset verbatim;
the embedding keeps the echoed dataset as the payload. -/
inductive FitError where
  | valueError (echoedDataset : List (List ℤ))
deriving DecidableEq

/-- Embedding of `MultinomialMixHMM.fit` (mixhmm.py lines 594-615) in
state-passing style over an abstract model state `M`.  `baseFit` stands for
`_BaseMixHMM.fit` (initialization plus the EM loop), the only code that
mutates the model.  When the symbol check fails, the source raises before
calling `_BaseMixHMM.fit`, so the model comes back unchanged together with
the error echoing the dataset. -/
def multinomialFit {M : Type} (baseFit : M → List (List ℤ) → M)
    (model : M) (obs : List (List ℤ)) : M × Option FitError :=
  if checkInputSymbols obs then (baseFit model obs, none)
  else (model, some (FitError.valueError obs))

/-- Modelled from the spec: a deterministic, seedable random-number source
(spec sections 1 and 6).  A generator is a pair of predetermined streams
(one of uniform rationals for `rand`, one of naturals for integer draws)
with a cursor; every draw is a pure function of the generator state. -/
structure Rng where
  reals : ℕ → ℚ
  ints : ℕ → ℕ
  pos : ℕ

/-- One uniform draw, embedding `random_state.rand()`. -/
def Rng.rand (g : Rng) : ℚ × Rng :=
  (g.reals g.pos, { g with pos := g.pos + 1 })

/-- Modelled from the spec: `np.random.randint(lo, hi)` returns an integer
in `[lo, hi)` determined by the generator it draws from; the source calls
it on the ambient global numpy generator. -/
def Rng.randint (g : Rng) (lo hi : ℕ) : ℕ × Rng :=
  (lo + g.ints g.pos % (hi - lo), { g with pos := g.pos + 1 })

/-- Running prefix sums, embedding `np.cumsum`. -/
def cumsumFrom (acc : ℚ) : List ℚ → List ℚ
  | [] => []
  | x :: xs => (acc + x) :: cumsumFrom (acc + x) xs

/-- Embedding of `np.cumsum(component_weights_pdf)`. -/
def cumsum (l : List ℚ) : List ℚ := cumsumFrom 0 l

/-- Embedding of `(component_weights_cdf > rand).argmax()`: numpy's argmax
of a boolean vector is the first `True` position, or 0 when none is true. -/
def selectComponent (cdf : List ℚ) (r : ℚ) : ℕ :=
  let bools := cdf.map (fun c => decide (r < c))
  if bools.any id then bools.findIdx id else 0

/-- Embedding of the loop body of `_BaseMixHMM.sample` (mixhmm.py lines
262-272).  `hmmSample` stands for `self.hmms[comp].sample(n, random_state)`
of the ComponentHMM collaborator (spec section 6: a pure function of the
supplied generator).  `rs` is the explicit `random_state`; `g` is the
ambient global numpy generator consumed by `np.random.randint` at line 267. -/
def sampleLoop (hmmSample : ℕ → ℕ → Rng → (List ℤ × List ℕ) × Rng)
    (cdf : List ℚ) (n_min n_max : ℕ) :
    ℕ → Rng → Rng → List ℕ × List (List ℤ) × List (List ℕ)
  | 0, _, _ => ([], [], [])
  | n + 1, rs, g =>
    let r := rs.rand
    let comp := selectComponent cdf r.1
    let len := g.randint n_min n_max
    let drawn := hmmSample comp len.1 r.2
    let rest := sampleLoop hmmSample cdf n_min n_max n drawn.2 len.2
    (comp :: rest.1, drawn.1.1 :: rest.2.1, drawn.1.2 :: rest.2.2)

/-- Embedding of `_BaseMixHMM.sample` (mixhmm.py lines 231-274), returning
the component labels, observation sequences and state sequences. -/
def sample (hmmSample : ℕ → ℕ → Rng → (List ℤ × List ℕ) × Rng)
    (component_weights : List ℚ) (n_seq n_min n_max : ℕ)
    (random_state globalRng : Rng) : List ℕ × List (List ℤ) × List (List ℕ) :=
  sampleLoop hmmSample (cumsum component_weights) n_min n_max n_seq
    random_state globalRng

/-- Embedding of the EM loop of `_BaseMixHMM.fit` (mixhmm.py lines
306-343), generic in the model state `M` and the statistics `St`.  `estep`
is the expectation pass over the whole dataset (lines 309-328: it builds the
sufficient statistics and the iteration's total log-likelihood from the
current model, mutating nothing); `mstep` is `_do_mstep`.  The fuel is
`n_iter`; `prev` is the previous iteration's total log-likelihood, absent on
iteration 0.  Exactly as in the source, the convergence test runs after the
expectation pass and, when it fires, the loop breaks before `_do_mstep`. -/
def fitLoop {M St : Type} (estep : M → St × ℚ) (mstep : St → M → M)
    (thresh : ℚ) : ℕ → M → Option ℚ → M
  | 0, m, _ => m
  | n + 1, m, prev =>
    let es := estep m
    match prev with
    | some p =>
      if |es.2 - p| < thresh then m
      else fitLoop estep mstep thresh n (mstep es.1 m) (some es.2)
    | none => fitLoop estep mstep thresh n (mstep es.1 m) (some es.2)

/-- Modelled from the spec: numpy's `argmax` over a one-dimensional array,
returning the position of the maximum with ties broken by the lowest index
(spec section 4.2: standard array argmax semantics); on an empty list it
returns 0. -/
def npArgmax {α : Type} [LinearOrder α] : List α → ℕ
  | [] => 0
  | [_] => 0
  | x :: y :: ys =>
    let j := npArgmax (y :: ys)
    if x < (y :: ys).getD j x then j + 1 else 0

/-- Modelled from the spec: the LogSpaceMath collaborator's `logsumexp`
(spec section 6), the stable log-sum-exp; in exact real arithmetic it is
the log of the sum of exponentials. -/
noncomputable def logsumexp {n : ℕ} (v : Fin n → ℝ) : ℝ :=
  Real.log (∑ k, Real.exp (v k))

/-- Modelled from the spec: the LogSpaceMath collaborator's `log_normalize`
(spec section 6), which returns log-probabilities whose exponentials sum
to 1; in exact arithmetic that is the input shifted down by its
log-sum-exp. -/
noncomputable def logNormalizeSpec {n : ℕ} (v : Fin n → ℝ) : Fin n → ℝ :=
  fun k => v k - logsumexp v

/-- The per-sequence joint vector `curr_logprob` of `score`, `score_samples`
and `fit`: component k's forward log-likelihood of the sequence plus the
log component weight of k (mixhmm.py lines 158-161, 188-191, 316-321).
`fwd` stands for the first result of `hmms[k]._do_forward_pass` on the
sequence, an external collaborator value (spec section 6). -/
noncomputable def jointLogprob {K : ℕ} (logW : Fin K → ℝ) (fwd : Fin K → ℝ) :
    Fin K → ℝ :=
  fun k => fwd k + logW k

/-- Embedding of `_BaseMixHMM.score_samples` (mixhmm.py lines 131-164):
per sequence `i`, the log-probability is the log-sum-exp of the joint
vector and the responsibility row is its log-normalization.  `fwd i k` is
component k's forward log-likelihood of sequence `i`. -/
noncomputable def score_samples {K n : ℕ} (logW : Fin (K + 1) → ℝ)
    (fwd : Fin n → Fin (K + 1) → ℝ) :
    (Fin n → ℝ) × (Fin n → Fin (K + 1) → ℝ) :=
  (fun i => logsumexp (jointLogprob logW (fwd i)),
   fun i => logNormalizeSpec (jointLogprob logW (fwd i)))

/-- Embedding of `_BaseMixHMM.score` (mixhmm.py lines 166-193). -/
noncomputable def score {K n : ℕ} (logW : Fin (K + 1) → ℝ)
    (fwd : Fin n → Fin (K + 1) → ℝ) : Fin n → ℝ :=
  fun i => logsumexp (jointLogprob logW (fwd i))

/-- Embedding of `_BaseMixHMM.predict` (mixhmm.py lines 195-210): the argmax
over the responsibility row returned by `score_samples`. -/
noncomputable def predict {K n : ℕ} (logW : Fin (K + 1) → ℝ)
    (fwd : Fin n → Fin (K + 1) → ℝ) : Fin n → ℕ :=
  fun i => npArgmax (List.ofFn ((score_samples logW fwd).2 i))

/-- The per-sequence inner sufficient statistics of the base class
(`_initialize_inner_sufficient_statistics`, mixhmm.py lines 391-396):
per component, the accumulated `curr_logprob`, the start counts and the
transition counts. -/
structure InnerStats (K S : ℕ) where
  component_weights : Fin K → ℝ
  start : Fin K → Fin S → ℝ
  trans : Fin K → Fin S → Fin S → ℝ

/-- The outer sufficient statistics of the base class
(`_initialize_sufficient_statistics`, mixhmm.py lines 385-389), with the
per-component HMM stats restricted to their start and transition fields. -/
structure OuterStats (K S : ℕ) where
  component_weights : Fin K → ℝ
  start : Fin K → Fin S → ℝ
  trans : Fin K → Fin S → Fin S → ℝ

/-- Embedding of `_BaseMixHMM._accumulate_sufficient_statistics`
(mixhmm.py lines 415-424): the fold of one sequence's inner statistics into
the outer accumulator.  The multiplier is
`component_weights = log_normalize(inner_stats['component_weights'], 0)`,
with `log_normalize` modelled from the spec (log-domain normalization). -/
noncomputable def accumulate_sufficient_statistics {K S : ℕ}
    (params : List Char) (stats : OuterStats K S) (inner : InnerStats K S) :
    OuterStats K S :=
  let cw := logNormalizeSpec inner.component_weights
  { component_weights := fun k =>
      if 'p' ∈ params then stats.component_weights k + cw k
      else stats.component_weights k,
    start := fun k s =>
      if 'h' ∈ params then stats.start k s + cw k * inner.start k s
      else stats.start k s,
    trans := fun k s t =>
      if 'h' ∈ params then stats.trans k s t + cw k * inner.trans k s t
      else stats.trans k s t }

/-- The posteriors computed in the E-step of `fit` (mixhmm.py lines
319-320): `np.exp(gamma.T - logsumexp(gamma, axis=1)).T`, i.e. each row of
`gamma = fwdlattice + bwdlattice` exponentiated and normalized. -/
noncomputable def posteriorsOfGamma {T S : ℕ}
    (gamma : Fin T → Fin (S + 1) → ℝ) : Fin T → Fin (S + 1) → ℝ :=
  fun t s => Real.exp (gamma t s) / ∑ u, Real.exp (gamma t u)

/-- Modelled from the spec: the log-domain transition tensor produced by
`_hmmc._compute_lneta` (spec section 4.4), for a sequence of `T + 1`
observations: entry `(t, i, j)` is `fwd[t, i] + log_transmat[i, j] +
framelogprob[t+1, j] + bwd[t+1, j] - lnP` with `lnP` the log-sum-exp of the
last forward row.  The `_hmmc` extension module is not among the sources. -/
noncomputable def lnetaSpec {T S : ℕ}
    (fwdlattice bwdlattice framelogprob : Fin (T + 1) → Fin (S + 1) → ℝ)
    (log_transmat : Fin (S + 1) → Fin (S + 1) → ℝ) :
    Fin T → Fin (S + 1) → Fin (S + 1) → ℝ :=
  fun t i j =>
    fwdlattice t.castSucc i + log_transmat i j + framelogprob t.succ j +
      bwdlattice t.succ j - logsumexp (fwdlattice (Fin.last T))

/-- Embedding of `_BaseMixHMM._accumulate_inner_sufficient_statistics`
(mixhmm.py lines 398-413) for component `k` on a sequence of `T + 1`
observations: `curr_logprob` is added to the inner component-weight slot;
when `'h'` is in `params`, the time-0 posterior row is added to the start
counts, and the exponentiated (clamped at 700) time-summed `lneta` tensor
is added to the transition counts only when the sequence has more than one
observation, i.e. `0 < T`. -/
noncomputable def accumulate_inner_sufficient_statistics {K S : ℕ}
    (T : ℕ) (params : List Char) (k : Fin K)
    (stats : InnerStats K (S + 1))
    (framelogprob posteriors fwdlattice bwdlattice : Fin (T + 1) → Fin (S + 1) → ℝ)
    (log_transmat : Fin (S + 1) → Fin (S + 1) → ℝ)
    (curr_logprob : ℝ) : InnerStats K (S + 1) :=
  { component_weights := fun j =>
      if j = k then stats.component_weights j + curr_logprob
      else stats.component_weights j,
    start := fun j s =>
      if j = k ∧ 'h' ∈ params then stats.start j s + posteriors 0 s
      else stats.start j s,
    trans := fun j s t =>
      if j = k ∧ 'h' ∈ params ∧ 0 < T then
        stats.trans j s t +
          Real.exp (min (logsumexp (fun u : Fin T =>
            lnetaSpec fwdlattice bwdlattice framelogprob log_transmat u s t)) 700)
      else stats.trans j s t }

theorem npAllclose_eq_true {a b : ℚ}
    (h : |a - b| ≤ 1 / 100000000 + 1 / 100000 * |b|) :
    npAllclose a b = true := by
  simpa [npAllclose] using h

theorem setComponentWeights_ok (K : ℕ) (w : List ℚ) (hl : w.length = K)
    (hc : npAllclose w.sum 1 = true) :
    setComponentWeights K w = Except.ok w := by
  unfold setComponentWeights
  rw [if_neg (by simp [hl]), if_pos hc]

theorem sum_map_div (l : List ℚ) (s : ℚ) :
    (l.map (fun x => x / s)).sum = l.sum / s := by
  induction l with
  | nil => simp
  | cons a t ih => simp [ih, add_div]

theorem normalizeSpec_sum (v : List ℚ) (h : v.sum ≠ 0) :
    (normalizeSpec v).sum = 1 := by
  unfold normalizeSpec
  rw [sum_map_div]
  exact div_self h

theorem normalizeSpec_length (v : List ℚ) :
    (normalizeSpec v).length = v.length := by
  simp [normalizeSpec]

theorem normalizeSpec_pos (v : List ℚ) (hv : ∀ x ∈ v, 0 < x)
    (hs : 0 < v.sum) : ∀ x ∈ normalizeSpec v, 0 < x := by
  intro x hx
  obtain ⟨y, hy, rfl⟩ := List.mem_map.1 hx
  exact div_pos (hv y hy) hs

theorem flooredWeights_pos (prior statsCW : List ℚ) :
    ∀ x ∈ flooredWeights prior statsCW, 0 < x := by
  intro x hx
  obtain ⟨ps, _, rfl⟩ := List.mem_map.1 hx
  exact lt_of_lt_of_le (by norm_num) (le_max_right _ _)

theorem flooredWeights_length (prior statsCW : List ℚ) :
    (flooredWeights prior statsCW).length = min prior.length statsCW.length := by
  simp [flooredWeights]

theorem flooredWeights_sum_pos (prior statsCW : List ℚ)
    (h : flooredWeights prior statsCW ≠ []) :
    0 < (flooredWeights prior statsCW).sum :=
  List.sum_pos _ (flooredWeights_pos prior statsCW) h

/-- Claim C3: whenever `'p'` is in `params`, the maximization step replaces
the component weights with `normalize(maximum(component_weights_prior - 1 +
accumulated component_weights statistics, 1e-20))` — the assignment passes
the setter's validation and stores exactly that vector — and since the floor
`1e-20` is applied before normalization, every stored weight is strictly
positive, so no component weight is set to exact zero by maximization. -/
theorem c3_mstep_floors_then_normalizes (params : List Char) (K : ℕ)
    (prior statsCW current : List ℚ) (hp : 'p' ∈ params)
    (hlp : prior.length = K) (hls : statsCW.length = K) (hK : 0 < K) :
    doMstepComponentWeights params K prior statsCW current =
      Except.ok (normalizeSpec (flooredWeights prior statsCW)) ∧
    ∀ x ∈ normalizeSpec (flooredWeights prior statsCW), 0 < x := by
  have hfl : (flooredWeights prior statsCW).length = K := by
    rw [flooredWeights_length, hlp, hls, min_self]
  have hne : flooredWeights prior statsCW ≠ [] := by
    intro h
    rw [h] at hfl
    simp at hfl
    omega
  have hsum : 0 < (flooredWeights prior statsCW).sum :=
    flooredWeights_sum_pos prior statsCW hne
  have hnsum : (normalizeSpec (flooredWeights prior statsCW)).sum = 1 :=
    normalizeSpec_sum _ (ne_of_gt hsum)
  refine ⟨?_, normalizeSpec_pos _ (flooredWeights_pos prior statsCW) hsum⟩
  unfold doMstepComponentWeights
  rw [if_pos hp]
  exact setComponentWeights_ok K _ (by rw [normalizeSpec_length, hfl])
    (by rw [hnsum]; exact npAllclose_eq_true (by norm_num))

theorem c3_witness :
    doMstepComponentWeights ['p'] 1 [1] [0] [] =
      Except.ok (normalizeSpec (flooredWeights [1] [0])) :=
  (c3_mstep_floors_then_normalizes ['p'] 1 [1] [0] []
    (by decide) rfl rfl (by decide)).1

/-- Claim C4, counterexample: with two components, the explicit vector
`[0, 1]` contains an exact zero, passes both setter checks unchanged (it
already sums to 1, and the discarded `normalize` call changes nothing), and
is stored — so the read-back weights contain an exact zero, contradicting
the claim that no accepted vector is ever stored with a zero entry. -/
theorem c4_counterexample :
    setComponentWeights 2 [0, 1] = Except.ok [0, 1] ∧
      (0 : ℚ) ∈ ([0, 1] : List ℚ) := by
  constructor
  · exact setComponentWeights_ok 2 [0, 1] (by simp)
      (npAllclose_eq_true (by norm_num))
  · simp

/-- Claim C4, amended: every accepted vector is stored verbatim (in
particular a zero-containing vector is not renormalized, since the source
discards the result of its `normalize` call), has length `n_components`,
and sums to 1 within the `np.allclose` tolerance; but its entries are only
non-negative in general — an exact zero entry is stored and read back as
exact zero. -/
theorem c4_amended_setter_stores_verbatim (K : ℕ) (w v : List ℚ)
    (h : setComponentWeights K w = Except.ok v) :
    v = w ∧ v.length = K ∧ npAllclose v.sum 1 = true := by
  unfold setComponentWeights at h
  by_cases hl : w.length ≠ K
  · rw [if_pos hl] at h
    exact absurd h (by simp)
  · rw [if_neg hl] at h
    by_cases hc : npAllclose w.sum 1
    · rw [if_pos hc] at h
      obtain rfl : w = v := by simpa using h
      exact ⟨rfl, not_ne_iff.1 hl, hc⟩
    · rw [if_neg hc] at h
      exact absurd h (by simp)

theorem c4_witness :
    ([1/2, 1/2] : List ℚ) = [1/2, 1/2] ∧
      ([1/2, 1/2] : List ℚ).length = 2 ∧
      npAllclose ([1/2, 1/2] : List ℚ).sum 1 = true :=
  c4_amended_setter_stores_verbatim 2 [1/2, 1/2] [1/2, 1/2]
    (setComponentWeights_ok 2 [1/2, 1/2] (by simp)
      (npAllclose_eq_true (by norm_num)))

/-- Claim C5, counterexample: a vector of length 3 passed with
`n_components = 2` is rejected with a `ValueError` (there is no ShapeError
in the source: both failures raise `ValueError`), and the vector
`[1/2, 1/2 + 1/200000]`, whose sum differs from 1 by `5e-6` — far outside
the claimed tolerance `1e-8` — is nevertheless accepted, because the source
uses `np.allclose`, whose default tolerance is `1e-8 + 1e-5`. -/
theorem c5_counterexample :
    setComponentWeights 2 [3/10, 3/10, 2/5] =
      Except.error (PyError.valueError
        ("component_weights must have length n_components")) ∧
    setComponentWeights 2 [1/2, 1/2 + 1/200000] =
      Except.ok [1/2, 1/2 + 1/200000] := by
  constructor
  · unfold setComponentWeights
    rw [if_pos (by simp)]
  · exact setComponentWeights_ok 2 [1/2, 1/2 + 1/200000] (by simp)
      (npAllclose_eq_true (by norm_num [abs_le]))

/-- Claim C5, amended: setting the component weights to an explicit vector
fails with a `ValueError` (not a ShapeError) when the length differs from
`n_components`; otherwise it fails with a `ValueError` when the sum is not
within the `np.allclose` default tolerance (`1e-8 + 1e-5 * 1`, not `1e-8`)
of 1.0; and a vector passing both checks is accepted and stored. -/
theorem c5_amended_setter_errors (K : ℕ) (w : List ℚ) :
    (w.length ≠ K →
      setComponentWeights K w = Except.error (PyError.valueError
        ("component_weights must have length n_components"))) ∧
    (w.length = K → npAllclose w.sum 1 = false →
      setComponentWeights K w = Except.error (PyError.valueError
        ("component_weights must sum to 1.0"))) ∧
    (w.length = K → npAllclose w.sum 1 = true →
      setComponentWeights K w = Except.ok w) := by
  refine ⟨fun hl => ?_, fun hl hc => ?_, fun hl hc => ?_⟩
  · unfold setComponentWeights
    rw [if_pos hl]
  · unfold setComponentWeights
    rw [if_neg (by simp [hl]), if_neg (by simp [hc])]
  · unfold setComponentWeights
    rw [if_neg (by simp [hl]), if_pos hc]

theorem c5_witness :
    setComponentWeights 2 [1/2, 1/2] = Except.ok [1/2, 1/2] :=
  (c5_amended_setter_errors 2 [1/2, 1/2]).2.2 (by simp)
    (npAllclose_eq_true (by norm_num))

theorem check_false_of_violates (obs : List (List ℤ))
    (h : violatesMultinomialPrecondition obs = true) :
    checkInputSymbols obs = false := by
  unfold checkInputSymbols
  by_cases h1 : obs.flatten.length = 1
  · simp [h1]
  · by_cases h2 : obs.flatten.any (fun x => decide (x < 0)) = true
    · simp [h1, h2]
    · by_cases h3 : (intDiffs (List.insertionSort (fun a b => a ≤ b)
          obs.flatten)).any (fun d => decide (1 < d)) = true
      · simp [h1, h2, h3]
      · exfalso
        unfold violatesMultinomialPrecondition at h
        rw [Bool.not_eq_true'] at h
        simp only [List.any_eq_true, decide_eq_true_eq, not_exists, not_and,
          not_lt] at h2 h3
        have hA : obs.flatten.all (fun x => decide (0 ≤ x)) = true := by
          simp only [List.all_eq_true, decide_eq_true_eq]
          exact h2
        have hB : (intDiffs (List.insertionSort (fun a b => a ≤ b)
            obs.flatten)).all (fun d => decide (d ≤ 1)) = true := by
          simp only [List.all_eq_true, decide_eq_true_eq]
          exact h3
        rw [hA, hB] at h
        simp at h

/-- Claim C7: whenever the concatenated dataset violates the multinomial
precondition (some symbol negative, or the sorted symbols have a gap larger
than 1), `MultinomialMixHMM.fit` raises a `ValueError` whose message echoes
the offending dataset (the source formats `err_msg % obs`), and the model
state comes back unchanged: `_BaseMixHMM.fit` — the only code performing
initialization and EM iterations — is never invoked. -/
theorem c7_multinomial_fit_fail_fast {M : Type}
    (baseFit : M → List (List ℤ) → M) (model : M) (obs : List (List ℤ))
    (h : violatesMultinomialPrecondition obs = true) :
    multinomialFit baseFit model obs =
      (model, some (FitError.valueError obs)) := by
  simp [multinomialFit, check_false_of_violates obs h]

theorem c7_witness :
    multinomialFit (fun (m : ℕ) _ => m + 1) 0 [[0, 5]] =
      (0, some (FitError.valueError [[0, 5]])) :=
  c7_multinomial_fit_fail_fast (fun m _ => m + 1) 0 [[0, 5]] (by decide)

/-- Claim C6, refutation by evaluation: two calls to `sample` with the same
model (a single component of weight 1), the same arguments
`n_seq = 1, n_min = 10, n_max = 20`, the same component-HMM sampler, and
the SAME explicit `random_state`, but different ambient global numpy
generator states, return different results: the source draws every
sequence length from `np.random.randint` (mixhmm.py line 267), i.e. from
hidden process-wide random state, so the output is not a function of the
model, the arguments and the supplied random source alone. -/
theorem c6_sample_depends_on_global_rng :
    sample (fun _ len g => ((List.replicate len 0, List.replicate len 0), g))
        [1] 1 10 20 ⟨fun _ => 0, fun _ => 0, 0⟩ ⟨fun _ => 0, fun _ => 0, 0⟩ ≠
      sample (fun _ len g => ((List.replicate len 0, List.replicate len 0), g))
        [1] 1 10 20 ⟨fun _ => 0, fun _ => 0, 0⟩ ⟨fun _ => 0, fun _ => 1, 0⟩ := by
  have L1 : sample
      (fun _ len g => ((List.replicate len (0:ℤ), List.replicate len 0), g))
      [1] 1 10 20 ⟨fun _ => 0, fun _ => 0, 0⟩ ⟨fun _ => 0, fun _ => 0, 0⟩ =
      ([0], [List.replicate 10 (0:ℤ)], [List.replicate 10 0]) := by
    norm_num [sample, sampleLoop, cumsum, cumsumFrom, Rng.rand, Rng.randint,
      selectComponent, List.findIdx_cons]
  have L2 : sample
      (fun _ len g => ((List.replicate len (0:ℤ), List.replicate len 0), g))
      [1] 1 10 20 ⟨fun _ => 0, fun _ => 0, 0⟩ ⟨fun _ => 0, fun _ => 1, 0⟩ =
      ([0], [List.replicate 11 (0:ℤ)], [List.replicate 11 0]) := by
    norm_num [sample, sampleLoop, cumsum, cumsumFrom, Rng.rand, Rng.randint,
      selectComponent, List.findIdx_cons]
  rw [L1, L2]
  decide

/-- Claim C10: when the EM loop of `fit` passes the convergence check at an
iteration after the first (the previous total log-likelihood `p` did not
trigger it, the new one does), the loop breaks before the maximization
step of that iteration, and the returned model is exactly the output of
the previous iteration's M-step: the final expectation pass computes
statistics and a log-likelihood but leaves every model parameter
unchanged. -/
theorem c10_convergence_skips_mstep {M St : Type} (estep : M → St × ℚ)
    (mstep : St → M → M) (thresh : ℚ) (n : ℕ) (m : M) (p : ℚ)
    (h0 : ¬ |(estep m).2 - p| < thresh)
    (h1 : |(estep (mstep (estep m).1 m)).2 - (estep m).2| < thresh) :
    fitLoop estep mstep thresh (n + 2) m (some p) = mstep (estep m).1 m := by
  have e1 : fitLoop estep mstep thresh (n + 2) m (some p) =
      fitLoop estep mstep thresh (n + 1) (mstep (estep m).1 m)
        (some (estep m).2) := by
    simp [fitLoop, h0]
  rw [e1]
  simp [fitLoop, h1]

theorem c10_witness :
    fitLoop (fun m : ℚ => (PUnit.unit, m)) (fun _ m => m) (1/2) 2
      (0 : ℚ) (some 10) = 0 :=
  c10_convergence_skips_mstep (fun m : ℚ => (PUnit.unit, m)) (fun _ m => m)
    (1/2) 0 0 10 (by norm_num) (by norm_num)

theorem sum_exp_pos {n : ℕ} (v : Fin (n + 1) → ℝ) :
    0 < ∑ k, Real.exp (v k) :=
  Finset.sum_pos (fun _ _ => Real.exp_pos _) Finset.univ_nonempty

theorem sum_exp_logNormalize {n : ℕ} (v : Fin (n + 1) → ℝ) :
    ∑ k, Real.exp (logNormalizeSpec v k) = 1 := by
  have hS : 0 < ∑ k, Real.exp (v k) := sum_exp_pos v
  unfold logNormalizeSpec logsumexp
  simp only [Real.exp_sub, Real.exp_log hS]
  rw [← Finset.sum_div]
  exact div_self (ne_of_gt hS)

/-- Claim C2: for every model (log component weights) and per-component
forward log-likelihoods, `score` and `score_samples` return for each
sequence `i` the log-probability `logsumexp` of the joint vector
`forward log-likelihood + log component weight`, `score_samples` returns
the responsibility row equal to that joint vector minus the
log-probability, and the exponentials of each returned responsibility row
sum to exactly 1. -/
theorem c2_score_and_score_samples (K n : ℕ) (logW : Fin (K + 1) → ℝ)
    (fwd : Fin n → Fin (K + 1) → ℝ) (i : Fin n) :
    score logW fwd i = (score_samples logW fwd).1 i ∧
    (score_samples logW fwd).1 i =
      logsumexp (fun k => fwd i k + logW k) ∧
    (∀ k, (score_samples logW fwd).2 i k =
      (fwd i k + logW k) - (score_samples logW fwd).1 i) ∧
    ∑ k, Real.exp ((score_samples logW fwd).2 i k) = 1 :=
  ⟨rfl, rfl, fun _ => rfl, sum_exp_logNormalize _⟩

/-- Claim C1, failing-input evaluation: with a single mixture component
(`K = 1`), one state, `params` containing both `'p'` and `'h'`, inner
statistics whose accumulated `component_weights` entry is `7` and whose
start count is `5`, and a zero outer accumulator, the fold of
`_accumulate_sufficient_statistics` leaves the outer start count at `0`:
the multiplier it uses is `log_normalize(inner.component_weights)[0] = 0`
(a log-responsibility), while the sequence's responsibility for the single
component is `exp 0 = 1`, so the increment the claim prescribes is
`1 * 5 = 5`, not `0`. -/
theorem c1_outer_fold_weight_is_log_responsibility :
    (accumulate_sufficient_statistics ['p', 'h']
        (⟨fun _ => 0, fun _ _ => 0, fun _ _ _ => 0⟩ : OuterStats 1 1)
        (⟨fun _ => 7, fun _ _ => 5, fun _ _ _ => 3⟩ : InnerStats 1 1)).start 0 0
      = 0 ∧
    Real.exp (logNormalizeSpec (fun _ : Fin 1 => (7 : ℝ)) 0) *
      ((⟨fun _ => 7, fun _ _ => 5, fun _ _ _ => 3⟩ : InnerStats 1 1).start 0 0)
      = 5 := by
  have hz : logNormalizeSpec (fun _ : Fin 1 => (7 : ℝ)) 0 = 0 := by
    simp [logNormalizeSpec, logsumexp, Fin.sum_univ_one, Real.log_exp]
  constructor
  · show (if 'h' ∈ ['p', 'h'] then
        (0 : ℝ) + logNormalizeSpec (fun _ : Fin 1 => (7 : ℝ)) 0 * 5
      else 0) = 0
    rw [if_pos (by decide), hz]
    ring
  · rw [hz]
    simp

/-- The posteriors actually passed to the inner accumulation by the E-step
of `fit` (mixhmm.py lines 319-323): `posteriorsOfGamma` of
`gamma = fwdlattice + bwdlattice`. -/
noncomputable def fitPosteriors {T S : ℕ}
    (fwdlattice bwdlattice : Fin T → Fin (S + 1) → ℝ) :
    Fin T → Fin (S + 1) → ℝ :=
  posteriorsOfGamma (fun t s => fwdlattice t s + bwdlattice t s)

theorem posteriorsOfGamma_row_sum {T S : ℕ} (g : Fin T → Fin (S + 1) → ℝ)
    (t : Fin T) : ∑ s, posteriorsOfGamma g t s = 1 := by
  unfold posteriorsOfGamma
  rw [← Finset.sum_div]
  exact div_self (ne_of_gt (sum_exp_pos _))

theorem posteriorsOfGamma_pos {T S : ℕ} (g : Fin T → Fin (S + 1) → ℝ)
    (t : Fin T) (s : Fin (S + 1)) : 0 < posteriorsOfGamma g t s :=
  div_pos (Real.exp_pos _) (sum_exp_pos _)

/-- Claim C8: on a sequence with a single observation (`T + 1 = 1`) and
`'h'` in `params`, the inner accumulation leaves every component's
transition statistics unchanged (the `n_observations > 1` branch is not
taken), while the time-0 posterior row — computed by `fit` from the forward
and backward lattices — is added to component `k`'s start statistics; that
row sums to 1 and has every entry strictly positive, hence is non-zero. -/
theorem c8_length_one_sequence_stats (K S : ℕ) (params : List Char)
    (k : Fin (K + 1)) (stats : InnerStats (K + 1) (S + 1))
    (framelogprob fwdlattice bwdlattice : Fin 1 → Fin (S + 1) → ℝ)
    (log_transmat : Fin (S + 1) → Fin (S + 1) → ℝ) (curr_logprob : ℝ)
    (hh : 'h' ∈ params) :
    (∀ j s t,
      (accumulate_inner_sufficient_statistics 0 params k stats framelogprob
        (fitPosteriors fwdlattice bwdlattice) fwdlattice bwdlattice
        log_transmat curr_logprob).trans j s t = stats.trans j s t) ∧
    (∀ s,
      (accumulate_inner_sufficient_statistics 0 params k stats framelogprob
        (fitPosteriors fwdlattice bwdlattice) fwdlattice bwdlattice
        log_transmat curr_logprob).start k s =
        stats.start k s + fitPosteriors fwdlattice bwdlattice 0 s) ∧
    (∑ s, fitPosteriors fwdlattice bwdlattice 0 s = 1) ∧
    (∀ s, 0 < fitPosteriors fwdlattice bwdlattice 0 s) := by
  refine ⟨fun j s t => ?_, fun s => ?_, posteriorsOfGamma_row_sum _ 0,
    fun s => posteriorsOfGamma_pos _ 0 s⟩
  · show (if j = k ∧ 'h' ∈ params ∧ 0 < 0 then _ else stats.trans j s t) = _
    rw [if_neg (by simp)]
  · show (if k = k ∧ 'h' ∈ params then
        stats.start k s + fitPosteriors fwdlattice bwdlattice 0 s
      else stats.start k s) = _
    rw [if_pos ⟨rfl, hh⟩]

theorem c8_witness :
    (accumulate_inner_sufficient_statistics 0 ['h'] 0
      (⟨fun _ => 0, fun _ _ => 0, fun _ _ _ => 0⟩ : InnerStats 1 1)
      (fun _ _ => 0) (fitPosteriors (fun _ _ => 0) (fun _ _ => 0))
      (fun _ _ => 0) (fun _ _ => 0) (fun _ _ => 0) 0).trans 0 0 0 = 0 :=
  (c8_length_one_sequence_stats 0 0 ['h'] 0
    (⟨fun _ => 0, fun _ _ => 0, fun _ _ _ => 0⟩ : InnerStats 1 1)
    (fun _ _ => 0) (fun _ _ => 0) (fun _ _ => 0) (fun _ _ => 0) 0
    (by decide)).1 0 0 0

theorem getD_congr {α : Type} :
    ∀ (l : List α) (i : ℕ), i < l.length → ∀ (d e : α), l.getD i d = l.getD i e
  | [], i, h, _, _ => absurd h (by simp)
  | _ :: _, 0, _, _, _ => rfl
  | _ :: t, i + 1, h, d, e => by
    simp only [List.getD_cons_succ]
    exact getD_congr t i (by simpa using h) d e

theorem npArgmax_cons_cons {α : Type} [LinearOrder α] (x y : α)
    (ys : List α) :
    npArgmax (x :: y :: ys) =
      if x < (y :: ys).getD (npArgmax (y :: ys)) x then
        npArgmax (y :: ys) + 1
      else 0 :=
  rfl

theorem npArgmax_lt_length {α : Type} [LinearOrder α] :
    ∀ (l : List α), l ≠ [] → npArgmax l < l.length
  | [], h => absurd rfl h
  | [_], _ => by simp [npArgmax]
  | x :: y :: ys, _ => by
    have ih := npArgmax_lt_length (y :: ys) (by simp)
    rw [npArgmax_cons_cons]
    by_cases hc : x < (y :: ys).getD (npArgmax (y :: ys)) x
    · rw [if_pos hc]
      simpa using Nat.succ_lt_succ ih
    · rw [if_neg hc]
      simp

theorem npArgmax_is_max {α : Type} [LinearOrder α] (d : α) :
    ∀ (l : List α) (i : ℕ), i < l.length →
      l.getD i d ≤ l.getD (npArgmax l) d
  | [], _, h => absurd h (by simp)
  | [x], i, h => by
    have hi : i = 0 := Nat.lt_one_iff.1 (by simpa using h)
    subst hi
    simp [npArgmax]
  | x :: y :: ys, i, h => by
    have hj : npArgmax (y :: ys) < (y :: ys).length :=
      npArgmax_lt_length (y :: ys) (by simp)
    have hcong : (y :: ys).getD (npArgmax (y :: ys)) x =
        (y :: ys).getD (npArgmax (y :: ys)) d :=
      getD_congr (y :: ys) (npArgmax (y :: ys)) hj x d
    rw [npArgmax_cons_cons]
    by_cases hc : x < (y :: ys).getD (npArgmax (y :: ys)) x
    · rw [if_pos hc, List.getD_cons_succ]
      cases i with
      | zero =>
        rw [List.getD_cons_zero]
        exact le_of_lt (hcong ▸ hc)
      | succ i =>
        rw [List.getD_cons_succ]
        exact npArgmax_is_max d (y :: ys) i (by simpa using h)
    · rw [if_neg hc, List.getD_cons_zero]
      cases i with
      | zero => rw [List.getD_cons_zero]
      | succ i =>
        rw [List.getD_cons_succ]
        exact le_trans
          (le_trans (npArgmax_is_max d (y :: ys) i (by simpa using h))
            hcong.symm.le)
          (not_lt.1 hc)

theorem npArgmax_first_max {α : Type} [LinearOrder α] (d : α) :
    ∀ (l : List α) (i : ℕ), i < npArgmax l →
      l.getD i d < l.getD (npArgmax l) d
  | [], i, h => by simp [npArgmax] at h
  | [_], i, h => by simp [npArgmax] at h
  | x :: y :: ys, i, h => by
    have hj : npArgmax (y :: ys) < (y :: ys).length :=
      npArgmax_lt_length (y :: ys) (by simp)
    have hcong : (y :: ys).getD (npArgmax (y :: ys)) x =
        (y :: ys).getD (npArgmax (y :: ys)) d :=
      getD_congr (y :: ys) (npArgmax (y :: ys)) hj x d
    rw [npArgmax_cons_cons] at h ⊢
    by_cases hc : x < (y :: ys).getD (npArgmax (y :: ys)) x
    · rw [if_pos hc] at h ⊢
      rw [List.getD_cons_succ]
      cases i with
      | zero =>
        rw [List.getD_cons_zero]
        exact hcong ▸ hc
      | succ i =>
        rw [List.getD_cons_succ]
        exact npArgmax_first_max d (y :: ys) i (Nat.lt_of_succ_lt_succ h)
    · rw [if_neg hc] at h
      exact absurd h (by simp)

/-- Claim C9: `predict` returns, per sequence, the index of the component
whose returned responsibility is maximal, with ties broken by the lowest
index (standard array argmax semantics: every earlier index carries a
strictly smaller responsibility); with a single mixture component it
always returns component 0; and when the single component's stored
weights form a probability vector (the exponentials of the log weights
sum to 1), `score` of each sequence equals that component HMM's own
forward log-likelihood. -/
theorem c9_predict_argmax_and_single_component :
    (∀ (K n : ℕ) (logW : Fin (K + 1) → ℝ) (fwd : Fin n → Fin (K + 1) → ℝ)
        (i : Fin n),
      predict logW fwd i < K + 1 ∧
      (∀ j, j < K + 1 →
        (List.ofFn ((score_samples logW fwd).2 i)).getD j 0 ≤
          (List.ofFn ((score_samples logW fwd).2 i)).getD
            (predict logW fwd i) 0) ∧
      (∀ j, j < predict logW fwd i →
        (List.ofFn ((score_samples logW fwd).2 i)).getD j 0 <
          (List.ofFn ((score_samples logW fwd).2 i)).getD
            (predict logW fwd i) 0)) ∧
    (∀ (n : ℕ) (logW : Fin 1 → ℝ) (fwd : Fin n → Fin 1 → ℝ) (i : Fin n),
      predict logW fwd i = 0) ∧
    (∀ (n : ℕ) (logW : Fin 1 → ℝ) (fwd : Fin n → Fin 1 → ℝ) (i : Fin n),
      (∑ k, Real.exp (logW k)) = 1 → score logW fwd i = fwd i 0) := by
  refine ⟨fun K n logW fwd i => ?_, fun n logW fwd i => ?_,
    fun n logW fwd i h => ?_⟩
  · have hlen : (List.ofFn ((score_samples logW fwd).2 i)).length = K + 1 :=
      List.length_ofFn _
    have hne : List.ofFn ((score_samples logW fwd).2 i) ≠ [] := by
      intro hnil
      rw [hnil] at hlen
      simp at hlen
    refine ⟨?_, fun j hj => ?_, fun j hj => ?_⟩
    · have := npArgmax_lt_length _ hne
      rwa [hlen] at this
    · exact npArgmax_is_max 0 _ j (by rwa [hlen])
    · exact npArgmax_first_max 0 _ j hj
  · show npArgmax (List.ofFn ((score_samples logW fwd).2 i)) = 0
    rw [show List.ofFn ((score_samples logW fwd).2 i) =
        [(score_samples logW fwd).2 i 0] from List.ofFn_succ _]
    rfl
  · have h0 : logW 0 = 0 := by
      rw [Fin.sum_univ_one] at h
      exact Real.exp_injective (by rw [h, Real.exp_zero])
    show logsumexp (fun k => fwd i k + logW k) = fwd i 0
    unfold logsumexp
    rw [Fin.sum_univ_one]
    simp [h0, Real.log_exp]

theorem c9_witness :
    score (fun _ : Fin 1 => (0 : ℝ)) (fun _ _ : Fin 1 => (2 : ℝ)) 0 = 2 :=
  c9_predict_argmax_and_single_component.2.2 1 (fun _ => 0) (fun _ _ => 2) 0
    (by simp)

end Mixhmm
